import Mathlib

/-!
Shallow embedding of the OpenUDS scheduling/allocation core:

* `uds/core/util/unique_id_generator.py` — `UniqueIDGenerator.get`,
  `free`, `__purge` over rows of the `UniqueId` table;
* `uds/core/util/unique_name_generator.py` — `UniqueNameGenerator.get`,
  `free` (decimal formatting / parsing layered on the id generator);
* `uds/core/jobs/delayed_task_runner.py` — `DelayedTaskRunner.insert`
  (bounded retry loop), `executeOneDelayedTask` (claim-one-due-task) and
  `checkExists` over rows of the `DelayedTask` table.

The relational store is modelled as a list of rows; one Django ORM
transaction body becomes one pure function from store to store.  Database
datetimes are modelled as integers (seconds).  The ORM default ordering of
`UniqueId` is by `seq` descending, so `queryset[0]` is the row of maximal
`seq`; an explicit `order_by` gives the row of minimal key.  Both are
modelled by `minByKey` / `maxByKey` below (first occurrence wins ties,
matching a deterministic scan order).
-/

/-- First element of the list minimising `key` (the `order_by(key)[0]` of a
query set); `none` on the empty list (the ORM raises `IndexError`). -/
def minByKey {α β : Type} [LinearOrder β] (key : α → β) : List α → Option α
  | [] => none
  | a :: l =>
    match minByKey key l with
    | none => some a
    | some b => if key b < key a then some b else some a

/-- First element of the list maximising `key` (the `order_by(-key)[0]` of a
query set); `none` on the empty list. -/
def maxByKey {α β : Type} [LinearOrder β] (key : α → β) : List α → Option α
  | [] => none
  | a :: l =>
    match maxByKey key l with
    | none => some a
    | some b => if key a < key b then some b else some a

theorem minByKey_eq_none {α β : Type} [LinearOrder β] (key : α → β) (l : List α) :
    minByKey key l = none ↔ l = [] := by
  cases l with
  | nil => simp [minByKey]
  | cons a l =>
    simp only [minByKey]
    cases h : minByKey key l with
    | none => simp
    | some b => simp [h]; split <;> simp

theorem minByKey_mem {α β : Type} [LinearOrder β] (key : α → β) (l : List α)
    (b : α) (h : minByKey key l = some b) : b ∈ l := by
  induction l with
  | nil => simp [minByKey] at h
  | cons a l ih =>
    simp only [minByKey] at h
    cases hm : minByKey key l with
    | none => rw [hm] at h; simp at h; simp [h]
    | some c =>
      rw [hm] at h
      by_cases hlt : key c < key a
      · simp [hlt] at h; subst h; exact List.mem_cons_of_mem _ (ih hm)
      · simp [hlt] at h; simp [h]

theorem minByKey_le {α β : Type} [LinearOrder β] (key : α → β) (l : List α)
    (b : α) (h : minByKey key l = some b) :
    ∀ a ∈ l, key b ≤ key a := by
  induction l generalizing b with
  | nil => simp [minByKey] at h
  | cons a l ih =>
    intro x hx
    simp only [minByKey] at h
    cases hm : minByKey key l with
    | none =>
      rw [hm] at h; simp at h; subst h
      rcases List.mem_cons.mp hx with hxa | hxl
      · simp [hxa]
      · exact absurd ((minByKey_eq_none key l).mp hm ▸ hxl) (List.not_mem_nil x)
    | some c =>
      rw [hm] at h
      rcases List.mem_cons.mp hx with hxa | hxl
      · subst hxa
        by_cases hlt : key c < key x
        · simp [hlt] at h; subst h; exact le_of_lt hlt
        · simp [hlt] at h; simp [h]
      · by_cases hlt : key c < key a
        · simp [hlt] at h; subst h; exact ih c hm x hxl
        · simp [hlt] at h; subst h
          exact le_trans (not_lt.mp hlt) (ih c hm x hxl)

theorem maxByKey_mem {α β : Type} [LinearOrder β] (key : α → β) (l : List α)
    (b : α) (h : maxByKey key l = some b) : b ∈ l := by
  induction l with
  | nil => simp [maxByKey] at h
  | cons a l ih =>
    simp only [maxByKey] at h
    cases hm : maxByKey key l with
    | none => rw [hm] at h; simp at h; simp [h]
    | some c =>
      rw [hm] at h
      by_cases hlt : key a < key c
      · simp [hlt] at h; subst h; exact List.mem_cons_of_mem _ (ih hm)
      · simp [hlt] at h; simp [h]

theorem maxByKey_eq_none {α β : Type} [LinearOrder β] (key : α → β) (l : List α) :
    maxByKey key l = none ↔ l = [] := by
  cases l with
  | nil => simp [maxByKey]
  | cons a l =>
    simp only [maxByKey]
    cases h : maxByKey key l with
    | none => simp
    | some b => simp [h]; split <;> simp

theorem maxByKey_ge {α β : Type} [LinearOrder β] (key : α → β) (l : List α)
    (b : α) (h : maxByKey key l = some b) :
    ∀ a ∈ l, key a ≤ key b := by
  induction l generalizing b with
  | nil => simp [maxByKey] at h
  | cons a l ih =>
    intro x hx
    simp only [maxByKey] at h
    cases hm : maxByKey key l with
    | none =>
      rw [hm] at h; simp at h; subst h
      rcases List.mem_cons.mp hx with hxa | hxl
      · simp [hxa]
      · exact absurd ((maxByKey_eq_none key l).mp hm ▸ hxl) (List.not_mem_nil x)
    | some c =>
      rw [hm] at h
      rcases List.mem_cons.mp hx with hxa | hxl
      · subst hxa
        by_cases hlt : key x < key c
        · simp [hlt] at h; subst h; exact le_of_lt hlt
        · simp [hlt] at h; simp [h]
      · by_cases hlt : key a < key c
        · simp [hlt] at h; subst h; exact ih c hm x hxl
        · simp [hlt] at h; subst h
          exact le_trans (ih c hm x hxl) (not_lt.mp hlt)

/-- Upper bound used by `unique_id_generator.py` for the default range end
(`MAX_SEQ = 1000000000000000`). -/
def MAX_SEQ : Nat := 1000000000000000

/-- One row of the `UniqueId` table: `basename`, `owner`, `seq`, `assigned`,
`stamp`. -/
structure UniqueIdRow where
  basename : String
  owner : String
  seq : Nat
  assigned : Bool
  stamp : Nat
  deriving DecidableEq, Repr

/-- The row predicate of `UniqueIDGenerator.__filter(rangeStart, rangeEnd)`:
same `basename` and `rangeStart <= seq <= rangeEnd`. -/
def inRangeB (b : String) (rangeStart rangeEnd : Nat) (r : UniqueIdRow) : Bool :=
  r.basename == b && decide (rangeStart ≤ r.seq) && decide (r.seq ≤ rangeEnd)

theorem inRangeB_iff (b : String) (rangeStart rangeEnd : Nat) (r : UniqueIdRow) :
    inRangeB b rangeStart rangeEnd r = true ↔
      r.basename = b ∧ rangeStart ≤ r.seq ∧ r.seq ≤ rangeEnd := by
  simp [inRangeB, and_assoc]

/-- The first lookup of `UniqueIDGenerator.get`:
`flt.filter(assigned=False).order_by('seq')[0]`, the unassigned row of least
`seq` among the rows of the basename in range (`none` on `IndexError`). -/
def freeCandidate (store : List UniqueIdRow) (b : String)
    (rangeStart rangeEnd : Nat) : Option UniqueIdRow :=
  minByKey (fun r => r.seq)
    ((store.filter (inRangeB b rangeStart rangeEnd)).filter (fun r => !r.assigned))

/-- The `seq` the creating branch of `UniqueIDGenerator.get` computes: the
greatest assigned `seq` of the basename in range plus one (`last.seq + 1`,
the `[0]` of the descending-ordered query), or `rangeStart` when no row in
range is assigned (`IndexError`). -/
def nextSeq (store : List UniqueIdRow) (b : String)
    (rangeStart rangeEnd : Nat) : Nat :=
  match maxByKey (fun r => r.seq)
      ((store.filter (inRangeB b rangeStart rangeEnd)).filter (fun r => r.assigned)) with
  | some last => last.seq + 1
  | none => rangeStart

/-- The `item.save()` of `UniqueIDGenerator.get`: rows are keyed by
`(basename, seq)` (unique per basename), so saving the fetched item updates
the row with its key to `owner=self._owner, assigned=True, stamp=stamp`. -/
def assignUpdate (b owner : String) (s stamp : Nat) (r : UniqueIdRow) :
    UniqueIdRow :=
  if r.basename = b ∧ r.seq = s then
    { r with owner := owner, assigned := true, stamp := stamp }
  else r

/-- One successful transaction body of `UniqueIDGenerator.get(rangeStart,
rangeEnd)`: if an unassigned row of the basename exists in range, the one of
least `seq` is marked assigned/owned/stamped (rows are keyed by
`(basename, seq)`, which the model documents as unique, so `item.save()` is
the update of the matching rows); otherwise `nextSeq` is computed and either
`-1` is returned (when it exceeds `rangeEnd`) or a fresh assigned row is
created.  Returns the resulting `seq` (or `-1`) with the new store. -/
def uidGet (store : List UniqueIdRow) (b owner : String)
    (rangeStart rangeEnd stamp : Nat) : Int × List UniqueIdRow :=
  match freeCandidate store b rangeStart rangeEnd with
  | some item =>
      (Int.ofNat item.seq, store.map (assignUpdate b owner item.seq stamp))
  | none =>
      if rangeEnd < nextSeq store b rangeStart rangeEnd then (-1, store)
      else
        (Int.ofNat (nextSeq store b rangeStart rangeEnd),
          store ++ [{ basename := b, owner := owner,
                      seq := nextSeq store b rangeStart rangeEnd,
                      assigned := true, stamp := stamp }])

/-- Where the deletion of `UniqueIDGenerator.__purge` begins: the greatest
assigned `seq` of the basename (the `[0]` of the descending-ordered query)
plus one, or `0` when no row is assigned (the `except` branch). -/
def purgeStart (store : List UniqueIdRow) (b : String) : Nat :=
  match maxByKey (fun r => r.seq)
      ((store.filter (inRangeB b 0 MAX_SEQ)).filter (fun r => r.assigned)) with
  | some last => last.seq + 1
  | none => 0

/-- `UniqueIDGenerator.__purge`: delete every row of the basename with `seq`
in `[purgeStart, MAX_SEQ]` (the `self.__filter(seq).delete()` call). -/
def uidPurge (store : List UniqueIdRow) (b : String) : List UniqueIdRow :=
  store.filter (fun r => !inRangeB b (purgeStart store b) MAX_SEQ r)

/-- The row predicate of the update in `UniqueIDGenerator.free`:
`__filter(0)` (basename, `0 <= seq <= MAX_SEQ`) further filtered by
`owner=self._owner, seq=seq`. -/
def freeMatches (b owner : String) (seq : Nat) (r : UniqueIdRow) : Bool :=
  inRangeB b 0 MAX_SEQ r && (r.owner == owner) && (r.seq == seq)

/-- The `update(owner='', assigned=False, stamp=...)` step of
`UniqueIDGenerator.free`, applied to every matching row. -/
def freeUpdate (store : List UniqueIdRow) (b owner : String)
    (seq stamp : Nat) : List UniqueIdRow :=
  store.map (fun r =>
    if freeMatches b owner seq r then
      { r with owner := "", assigned := false, stamp := stamp }
    else r)

/-- `UniqueIDGenerator.free(seq)`: run the update; when it touched at least
one row (`flt > 0`), run `__purge`. -/
def uidFree (store : List UniqueIdRow) (b owner : String)
    (seq stamp : Nat) : List UniqueIdRow :=
  let n := store.countP (freeMatches b owner seq)
  let store1 := freeUpdate store b owner seq stamp
  if 0 < n then uidPurge store1 b else store1

/-- Decimal digits, structurally recursive on a fuel argument so that the
definition reduces; `fuel ≥ n` suffices since `n / 10 < n` for `n ≥ 10`. -/
def decDigitsAux (fuel n : Nat) : List Nat :=
  match fuel with
  | 0 => [n]
  | fuel + 1 => if n < 10 then [n] else decDigitsAux fuel (n / 10) ++ [n % 10]

/-- Decimal digits of `n`, most significant first (`[n]` for `n < 10`), as
Python's `"%d" % n` writes them. -/
def decDigits (n : Nat) : List Nat := decDigitsAux n n

/-- Zero-padding of `"%0*d" % (length, n)`: the decimal digits of `n`,
left-padded with `0` up to `length` digits (longer numbers are kept whole). -/
def padDigits (length n : Nat) : List Nat :=
  List.replicate (length - (decDigits n).length) 0 ++ decDigits n

/-- The character of one decimal digit. -/
def digitChar (d : Nat) : Char := Char.ofNat (48 + d)

/-- `UniqueNameGenerator.__toName` on a non-sentinel sequence number:
`"%s%0*d" % (self._baseName, length, seq)`. -/
def seqName (b : String) (length seq : Nat) : String :=
  b ++ String.mk ((padDigits length seq).map digitChar)

/-- Reading the numeric tail back, as `free`/`transfer` do with
`int(name[len(self._baseName):])`: drop the basename's characters and read
the rest as a decimal numeral. -/
def parseTail (b name : String) : Nat :=
  (name.data.drop b.data.length).foldl (fun acc c => 10 * acc + (c.toNat - 48)) 0

/-- `UniqueNameGenerator.get(baseName, length)`: run the id generator over
`[0, 10 ^ length - 1]`; the sentinel `-1` raises `KeyError` in
`__toName`, modelled as `none`, otherwise the formatted name is returned. -/
def ungGet (store : List UniqueIdRow) (owner b : String) (length stamp : Nat) :
    Option String × List UniqueIdRow :=
  let p := uidGet store b owner 0 (10 ^ length - 1) stamp
  (if p.1 = -1 then none else some (seqName b length p.1.toNat), p.2)

/-- `UniqueNameGenerator.free(baseName, name)`: parse the tail and delegate
to `UniqueIDGenerator.free`. -/
def ungFree (store : List UniqueIdRow) (owner b name : String)
    (stamp : Nat) : List UniqueIdRow :=
  uidFree store b owner (parseTail b name) stamp

/-- One row of the `DelayedTask` table (`type`, serialized `instance`,
`insert_date`, `execution_delay`, `execution_time`, `tag`). -/
structure DelayedTaskRow where
  typeName : String
  instanceDump : String
  insert_date : Int
  execution_delay : Nat
  execution_time : Int
  tag : String
  deriving DecidableEq, Repr

/-- Outcome of one `executeOneDelayedTask` poll. -/
inductive ClaimOutcome (τ : Type) where
  | nothingToDo : ClaimOutcome τ
  | decodeFailed : ClaimOutcome τ
  | loadFailed : ClaimOutcome τ
  | claimed : τ → ClaimOutcome τ
  deriving DecidableEq, Repr

/-- The claim filter of `executeOneDelayedTask`:
`Q(execution_time__lt=now) | Q(insert_date__gt=now + timedelta(seconds=30))`. -/
def eligibleB (now : Int) (r : DelayedTaskRow) : Bool :=
  decide (r.execution_time < now) || decide (now + 30 < r.insert_date)

/-- The claim query of `executeOneDelayedTask`:
`objects.select_for_update().filter(filt).order_by('execution_time')[0]`,
the eligible row of least `execution_time` (`none` on `IndexError`). -/
def claimedRow (now : Int) (store : List DelayedTaskRow) :
    Option DelayedTaskRow :=
  minByKey (fun r => r.execution_time) (store.filter (eligibleB now))

/-- `DelayedTaskRunner.executeOneDelayedTask`, with the environment's base64
decoding (`codecs.decode(..., 'base64')`) and unpickling (`pickle.loads`)
passed in as fallible functions.  The transaction selects the eligible row of
least `execution_time` (none: `IndexError`, nothing to do), base64-decodes its
payload (a failure here aborts the transaction, which rolls back, so the row
stays), deletes the row and commits; unpickling happens after the
transaction, so its failure leaves the row deleted. -/
def executeOneDelayedTask {τ : Type} (decode : String → Option (List Nat))
    (load : List Nat → Option τ) (now : Int) (store : List DelayedTaskRow) :
    List DelayedTaskRow × ClaimOutcome τ :=
  match claimedRow now store with
  | none => (store, ClaimOutcome.nothingToDo)
  | some task =>
    match decode task.instanceDump with
    | none => (store, ClaimOutcome.decodeFailed)
    | some dump =>
      let store1 := store.erase task
      match load dump with
      | none => (store1, ClaimOutcome.loadFailed)
      | some t => (store1, ClaimOutcome.claimed t)

/-- The retry loop of `DelayedTaskRunner.insert`: `failsAt i` tells whether
the i-th call of `__insert` raises.  From `retries` tries left and the next
attempt index, returns the final value of the `retries` variable and whether
some attempt persisted the record (the `break`). -/
def insertLoop (failsAt : Nat → Bool) : Nat → Nat → Nat × Bool
  | 0, _ => (0, false)
  | Nat.succ r, attempt =>
    if failsAt attempt then insertLoop failsAt r (attempt + 1)
    else (r, true)

/-- The boolean `DelayedTaskRunner.insert` returns: `False` exactly when the
loop ends with `retries == 0`. -/
def insertResult (failsAt : Nat → Bool) : Bool :=
  !((insertLoop failsAt 3 0).1 == 0)

/-- Whether some attempt of `DelayedTaskRunner.insert` persisted the record. -/
def insertPersisted (failsAt : Nat → Bool) : Bool :=
  (insertLoop failsAt 3 0).2

/-- How many `__insert` attempts `DelayedTaskRunner.insert` made: each loop
iteration consumes one unit of `retries` and makes one attempt. -/
def insertAttempts (failsAt : Nat → Bool) : Nat :=
  3 - (insertLoop failsAt 3 0).1

/-- The default of the `tag` parameter of `DelayedTaskRunner.insert`. -/
def insertDefaultTag : String := ""

/-- `DelayedTaskRunner.checkExists(tag)`: an empty (falsy) tag answers
`False` at once; otherwise the store is probed for rows with that tag. -/
def checkExists (store : List DelayedTaskRow) (tag : String) : Bool :=
  if tag = "" then false
  else decide (0 < store.countP (fun r => r.tag == tag))

theorem freeCandidate_spec (store : List UniqueIdRow) (b : String)
    (rangeStart rangeEnd : Nat) (item : UniqueIdRow)
    (h : freeCandidate store b rangeStart rangeEnd = some item) :
    item ∈ store ∧ item.basename = b ∧ rangeStart ≤ item.seq ∧
      item.seq ≤ rangeEnd ∧ item.assigned = false ∧
      ∀ r ∈ store, r.basename = b → rangeStart ≤ r.seq → r.seq ≤ rangeEnd →
        r.assigned = false → item.seq ≤ r.seq := by
  have hmem := minByKey_mem _ _ _ h
  have hle := minByKey_le _ _ _ h
  simp only [List.mem_filter, inRangeB_iff, Bool.not_eq_eq_eq_not,
    Bool.not_true] at hmem
  obtain ⟨⟨hs, hb, h1, h2⟩, hassigned⟩ := hmem
  refine ⟨hs, hb, h1, h2, hassigned, ?_⟩
  intro r hr hrb hr1 hr2 hra
  exact hle r (by simp [List.mem_filter, inRangeB_iff, hr, hrb, hr1, hr2, hra])

theorem freeCandidate_none (store : List UniqueIdRow) (b : String)
    (rangeStart rangeEnd : Nat)
    (h : freeCandidate store b rangeStart rangeEnd = none) :
    ∀ r ∈ store, r.basename = b → rangeStart ≤ r.seq → r.seq ≤ rangeEnd →
      r.assigned = true := by
  intro r hr hrb hr1 hr2
  have hnil := (minByKey_eq_none _ _).mp h
  rw [List.filter_filter] at hnil
  have := List.filter_eq_nil_iff.mp hnil r hr
  simp [inRangeB_iff, hrb, hr1, hr2] at this
  exact this

theorem nextSeq_spec (store : List UniqueIdRow) (b : String)
    (rangeStart rangeEnd : Nat) :
    (∃ last, last ∈ store ∧ last.basename = b ∧ rangeStart ≤ last.seq ∧
        last.seq ≤ rangeEnd ∧ last.assigned = true ∧
        nextSeq store b rangeStart rangeEnd = last.seq + 1 ∧
        (∀ r ∈ store, r.basename = b → rangeStart ≤ r.seq → r.seq ≤ rangeEnd →
          r.assigned = true → r.seq ≤ last.seq)) ∨
    ((∀ r ∈ store, r.basename = b → rangeStart ≤ r.seq → r.seq ≤ rangeEnd →
        r.assigned = false) ∧
      nextSeq store b rangeStart rangeEnd = rangeStart) := by
  unfold nextSeq
  cases hm : maxByKey (fun r => r.seq)
      ((store.filter (inRangeB b rangeStart rangeEnd)).filter
        (fun r => r.assigned)) with
  | none =>
    right
    refine ⟨?_, rfl⟩
    intro r hr hrb hr1 hr2
    have hnil := (maxByKey_eq_none _ _).mp hm
    rw [List.filter_filter] at hnil
    have := List.filter_eq_nil_iff.mp hnil r hr
    simp [inRangeB_iff, hrb, hr1, hr2] at this
    exact this
  | some last =>
    left
    have hmem := maxByKey_mem _ _ _ hm
    have hge := maxByKey_ge _ _ _ hm
    simp only [List.mem_filter, inRangeB_iff] at hmem
    obtain ⟨⟨hs, hb, h1, h2⟩, hassigned⟩ := hmem
    refine ⟨last, hs, hb, h1, h2, hassigned, rfl, ?_⟩
    intro r hr hrb hr1 hr2 hra
    exact hge r (by simp [List.mem_filter, inRangeB_iff, hr, hrb, hr1, hr2, hra])

theorem purgeStart_eq_nextSeq (store : List UniqueIdRow) (b : String) :
    purgeStart store b = nextSeq store b 0 MAX_SEQ := rfl

/-- C3: `get(rangeStart, rangeEnd)` returns the lowest-seq unassigned slot
in range if one exists, marking it assigned, owned by the caller and
stamped; otherwise it computes `seq` as the highest assigned `seq` in range
plus one, or `rangeStart` when no slot in range is assigned, answers the
sentinel `-1` when that `seq` exceeds `rangeEnd` (in particular when
`rangeStart = rangeEnd` and that slot is already assigned), and otherwise
creates a new assigned slot with that `seq` and returns it. -/
theorem uidGet_spec (store : List UniqueIdRow) (b owner : String)
    (rangeStart rangeEnd stamp : Nat) :
    ((∃ r, r ∈ store ∧ r.basename = b ∧ rangeStart ≤ r.seq ∧
        r.seq ≤ rangeEnd ∧ r.assigned = false) →
      ∃ item, item ∈ store ∧ item.basename = b ∧ rangeStart ≤ item.seq ∧
        item.seq ≤ rangeEnd ∧ item.assigned = false ∧
        (∀ r ∈ store, r.basename = b → rangeStart ≤ r.seq → r.seq ≤ rangeEnd →
          r.assigned = false → item.seq ≤ r.seq) ∧
        uidGet store b owner rangeStart rangeEnd stamp =
          (Int.ofNat item.seq, store.map (assignUpdate b owner item.seq stamp))) ∧
    ((∀ r ∈ store, r.basename = b → rangeStart ≤ r.seq → r.seq ≤ rangeEnd →
        r.assigned = true) →
      ((∃ last, last ∈ store ∧ last.basename = b ∧ rangeStart ≤ last.seq ∧
          last.seq ≤ rangeEnd ∧ last.assigned = true ∧
          nextSeq store b rangeStart rangeEnd = last.seq + 1 ∧
          (∀ r ∈ store, r.basename = b → rangeStart ≤ r.seq →
            r.seq ≤ rangeEnd → r.assigned = true → r.seq ≤ last.seq)) ∨
        ((∀ r ∈ store, r.basename = b → rangeStart ≤ r.seq → r.seq ≤ rangeEnd →
            r.assigned = false) ∧
          nextSeq store b rangeStart rangeEnd = rangeStart)) ∧
      (rangeEnd < nextSeq store b rangeStart rangeEnd →
        uidGet store b owner rangeStart rangeEnd stamp = (-1, store)) ∧
      (nextSeq store b rangeStart rangeEnd ≤ rangeEnd →
        uidGet store b owner rangeStart rangeEnd stamp =
          (Int.ofNat (nextSeq store b rangeStart rangeEnd),
            store ++ [{ basename := b, owner := owner,
                        seq := nextSeq store b rangeStart rangeEnd,
                        assigned := true, stamp := stamp }]))) ∧
    ((rangeStart = rangeEnd ∧
        (∀ r ∈ store, r.basename = b → rangeStart ≤ r.seq → r.seq ≤ rangeEnd →
          r.assigned = true) ∧
        (∃ r, r ∈ store ∧ r.basename = b ∧ r.seq = rangeStart ∧
          r.assigned = true)) →
      (uidGet store b owner rangeStart rangeEnd stamp).1 = -1) := by
  have hnone : (∀ r ∈ store, r.basename = b → rangeStart ≤ r.seq →
      r.seq ≤ rangeEnd → r.assigned = true) →
      freeCandidate store b rangeStart rangeEnd = none := by
    intro hall
    cases hfc : freeCandidate store b rangeStart rangeEnd with
    | none => rfl
    | some item =>
      obtain ⟨hs, hb, h1, h2, hna, _⟩ := freeCandidate_spec _ _ _ _ _ hfc
      rw [hall item hs hb h1 h2] at hna
      exact absurd hna (by simp)
  refine ⟨?_, ?_, ?_⟩
  · rintro ⟨r, hr, hrb, h1, h2, hra⟩
    cases hfc : freeCandidate store b rangeStart rangeEnd with
    | none =>
      rw [freeCandidate_none store b rangeStart rangeEnd hfc r hr hrb h1 h2] at hra
      exact absurd hra (by simp)
    | some item =>
      obtain ⟨hs, hb, hi1, hi2, hna, hmin⟩ := freeCandidate_spec _ _ _ _ _ hfc
      exact ⟨item, hs, hb, hi1, hi2, hna, hmin, by rw [uidGet, hfc]⟩
  · intro hall
    have hfc := hnone hall
    refine ⟨nextSeq_spec store b rangeStart rangeEnd, ?_, ?_⟩
    · intro hlt
      rw [uidGet, hfc]
      simp [hlt]
    · intro hle
      rw [uidGet, hfc]
      simp [Nat.not_lt.mpr hle]
  · rintro ⟨heq, hall, r, hr, hrb, hrs, hra⟩
    have hfc := hnone hall
    have hlt : rangeEnd < nextSeq store b rangeStart rangeEnd := by
      rcases nextSeq_spec store b rangeStart rangeEnd with
        ⟨last, _, _, _, hl2, _, hns, hmax⟩ | ⟨hnoa, _⟩
      · have : r.seq ≤ last.seq :=
          hmax r hr hrb (le_of_eq hrs.symm) (by rw [hrs, heq]) hra
        omega
      · have := hnoa r hr hrb (le_of_eq hrs.symm) (by rw [hrs, heq])
        rw [this] at hra
        exact absurd hra (by simp)
    rw [uidGet, hfc]
    simp [hlt]

/-- C4: compaction deletes exactly the rows of the basename whose `seq` is
strictly greater than the highest still-assigned `seq` (every row of the
basename when none is assigned) and never a row at or below it; every
assigned slot survives.  Stores created by the generator keep every `seq`
of the basename at or below `MAX_SEQ`, which is the hypothesis. -/
theorem uidPurge_spec (store : List UniqueIdRow) (b : String)
    (hmax : ∀ r ∈ store, r.basename = b → r.seq ≤ MAX_SEQ) :
    ((∀ r ∈ store, r.basename = b → r.assigned = false) →
      uidPurge store b = store.filter (fun r => !(r.basename == b))) ∧
    (∀ m, m ∈ store → m.basename = b → m.assigned = true →
      (∀ r ∈ store, r.basename = b → r.assigned = true → r.seq ≤ m.seq) →
      uidPurge store b =
        store.filter (fun r => !(r.basename == b && decide (m.seq < r.seq)))) ∧
    (∀ r ∈ store, r.basename = b → r.assigned = true → r ∈ uidPurge store b) := by
  refine ⟨?_, ?_, ?_⟩
  · intro hnoa
    have hps : purgeStart store b = 0 := by
      rw [purgeStart_eq_nextSeq]
      rcases nextSeq_spec store b 0 MAX_SEQ with
        ⟨last, hs, hb, _, _, hla, _, _⟩ | ⟨_, h0⟩
      · rw [hnoa last hs hb] at hla
        exact absurd hla (by simp)
      · exact h0
    unfold uidPurge
    rw [hps]
    refine List.filter_congr ?_
    intro r hr
    by_cases hb : r.basename = b
    · simp [inRangeB, hb, hmax r hr hb]
    · simp [inRangeB, hb]
  · intro m hm hmb hma hmtop
    have hps : purgeStart store b = m.seq + 1 := by
      rw [purgeStart_eq_nextSeq]
      rcases nextSeq_spec store b 0 MAX_SEQ with
        ⟨last, hs, hb, _, _, hla, hns, hmaxa⟩ | ⟨hnoa, _⟩
      · have h1 : last.seq ≤ m.seq := hmtop last hs hb hla
        have h2 : m.seq ≤ last.seq :=
          hmaxa m hm hmb (Nat.zero_le _) (hmax m hm hmb) hma
        omega
      · rw [hnoa m hm hmb (Nat.zero_le _) (hmax m hm hmb)] at hma
        exact absurd hma (by simp)
    unfold uidPurge
    rw [hps]
    refine List.filter_congr ?_
    intro r hr
    by_cases hb : r.basename = b
    · simp [inRangeB, hb, hmax r hr hb, Nat.succ_le]
    · have hfb : (r.basename == b) = false := beq_eq_false_iff_ne.mpr hb
      simp [inRangeB, hfb]
  · intro r hr hb ha
    have hps : purgeStart store b = nextSeq store b 0 MAX_SEQ :=
      purgeStart_eq_nextSeq store b
    have hlt : r.seq < purgeStart store b := by
      rw [hps]
      rcases nextSeq_spec store b 0 MAX_SEQ with
        ⟨last, _, _, _, _, _, hns, hmaxa⟩ | ⟨hnoa, _⟩
      · have := hmaxa r hr hb (Nat.zero_le _) (hmax r hr hb) ha
        omega
      · rw [hnoa r hr hb (Nat.zero_le _) (hmax r hr hb)] at ha
        exact absurd ha (by simp)
    unfold uidPurge
    rw [List.mem_filter]
    refine ⟨hr, ?_⟩
    simp only [inRangeB, Bool.not_eq_eq_eq_not, Bool.not_true, Bool.and_eq_false_iff]
    left
    right
    simpa using Nat.not_le.mpr hlt

/-- Witness for `uidPurge_spec`: a concrete two-row store whose assigned row
has the greatest assigned `seq`, so compaction keeps exactly the rows of the
basename up to it. -/
theorem uidPurge_spec_witness :
    uidPurge [⟨"b", "A", 0, true, 7⟩, ⟨"b", "", 1, false, 7⟩] "b" =
      List.filter
        (fun r => !(r.basename == "b" && decide (0 < r.seq)))
        [⟨"b", "A", 0, true, 7⟩, ⟨"b", "", 1, false, 7⟩] := by
  have h := uidPurge_spec [⟨"b", "A", 0, true, 7⟩, ⟨"b", "", 1, false, 7⟩] "b"
    (by decide)
  exact h.2.1 ⟨"b", "A", 0, true, 7⟩ (by decide) rfl rfl (by decide)

/-- C1 (failing input): when the first two `__insert` attempts raise and the
third succeeds, the record is persisted after exactly 3 attempts, yet
`insert` ends its loop with `retries == 0` and therefore reports `False` —
contradicting both its own error log (`Could not insert delayed task`), and
the rule that `False` means the task was not scheduled. -/
theorem insert_third_attempt_success_reports_false :
    insertAttempts (fun i => decide (i < 2)) = 3 ∧
    insertPersisted (fun i => decide (i < 2)) = true ∧
    insertResult (fun i => decide (i < 2)) = false := by decide

/-- The sound part of C1: at most 3 attempts are ever made, a failure of
every attempt yields `False`, and a success among the first two attempts
yields `True`. -/
theorem insert_retry_bound (failsAt : Nat → Bool) :
    insertAttempts failsAt ≤ 3 ∧
    ((∀ i, i < 3 → failsAt i = true) →
      insertPersisted failsAt = false ∧ insertResult failsAt = false) ∧
    (∀ j, j < 2 → failsAt j = false → (∀ i, i < j → failsAt i = true) →
      insertPersisted failsAt = true ∧ insertResult failsAt = true) := by
  refine ⟨?_, ?_, ?_⟩
  · unfold insertAttempts insertLoop
    cases h0 : failsAt 0 <;> cases h1 : failsAt 1 <;> cases h2 : failsAt 2 <;>
      simp [insertLoop, h0, h1, h2]
  · intro hall
    have h0 := hall 0 (by omega)
    have h1 := hall 1 (by omega)
    have h2 := hall 2 (by omega)
    unfold insertPersisted insertResult insertLoop
    simp [insertLoop, h0, h1, h2]
  · intro j hj hok hbefore
    unfold insertPersisted insertResult insertLoop
    interval_cases j
    · simp [insertLoop, hok]
    · have h0 := hbefore 0 (by omega)
      simp [insertLoop, h0, hok]

/-- C9: `checkExists` with the empty tag answers `False` on every store,
even one holding rows whose tag is the empty string — which `insert`
produces by default, its `tag` parameter defaulting to the empty string. -/
theorem checkExists_empty_tag_false :
    (∀ store : List DelayedTaskRow, checkExists store "" = false) ∧
    insertDefaultTag = "" := by
  exact ⟨fun store => by simp [checkExists], rfl⟩

theorem uidGet_fst_bounds (store : List UniqueIdRow) (b owner : String)
    (rangeStart rangeEnd stamp : Nat)
    (h : (uidGet store b owner rangeStart rangeEnd stamp).1 ≠ -1) :
    0 ≤ (uidGet store b owner rangeStart rangeEnd stamp).1 ∧
      (uidGet store b owner rangeStart rangeEnd stamp).1 ≤ (rangeEnd : Int) := by
  cases hfc : freeCandidate store b rangeStart rangeEnd with
  | some item =>
    obtain ⟨_, _, _, h2, _, _⟩ := freeCandidate_spec _ _ _ _ _ hfc
    simp only [uidGet, hfc]
    refine ⟨Int.ofNat_nonneg _, ?_⟩
    show Int.ofNat item.seq ≤ (rangeEnd : Int)
    rw [Int.ofNat_eq_coe]
    exact_mod_cast h2
  | none =>
    simp only [uidGet, hfc] at h ⊢
    by_cases hlt : rangeEnd < nextSeq store b rangeStart rangeEnd
    · rw [if_pos hlt] at h
      simp at h
    · rw [if_neg hlt]
      refine ⟨Int.ofNat_nonneg _, ?_⟩
      show Int.ofNat (nextSeq store b rangeStart rangeEnd) ≤ (rangeEnd : Int)
      rw [Int.ofNat_eq_coe]
      exact_mod_cast Nat.not_lt.mp hlt

/-- C7: `UniqueNameGenerator.get(baseName, length)` drives the id generator
over `[0, 10 ^ length - 1]` and formats the allocated `seq` as the basename
followed by `length` zero-padded digits; the `-1` sentinel instead raises
the distinguishable exhausted error (`none` here).  On an empty namespace
`get("ws", 3)` answers `"ws000"`, a second call `"ws001"`, and after
freeing `"ws000"` a further call answers `"ws000"` again. -/
theorem ungGet_spec :
    (∀ (store : List UniqueIdRow) (owner b : String) (length stamp : Nat),
      ((uidGet store b owner 0 (10 ^ length - 1) stamp).1 = -1 →
        (ungGet store owner b length stamp).1 = none) ∧
      ((uidGet store b owner 0 (10 ^ length - 1) stamp).1 ≠ -1 →
        0 ≤ (uidGet store b owner 0 (10 ^ length - 1) stamp).1 ∧
        (uidGet store b owner 0 (10 ^ length - 1) stamp).1 ≤
          ((10 ^ length - 1 : Nat) : Int) ∧
        (ungGet store owner b length stamp).1 =
          some (seqName b length
            (uidGet store b owner 0 (10 ^ length - 1) stamp).1.toNat))) ∧
    (ungGet ([] : List UniqueIdRow) "own" "ws" 3 100).1 = some "ws000" ∧
    (ungGet (ungGet ([] : List UniqueIdRow) "own" "ws" 3 100).2
      "own" "ws" 3 101).1 = some "ws001" ∧
    (ungGet (ungFree (ungGet (ungGet ([] : List UniqueIdRow)
          "own" "ws" 3 100).2 "own" "ws" 3 101).2 "own" "ws" "ws000" 102)
      "own" "ws" 3 103).1 = some "ws000" := by
  refine ⟨?_, by decide, by decide, by decide⟩
  intro store owner b length stamp
  constructor
  · intro h
    simp [ungGet, h]
  · intro h
    obtain ⟨h0, h1⟩ := uidGet_fst_bounds store b owner 0 (10 ^ length - 1) stamp h
    exact ⟨h0, h1, by simp [ungGet, h]⟩

theorem decDigitsAux_lt (fuel n : Nat) (hn : n ≤ fuel) :
    ∀ d ∈ decDigitsAux fuel n, d < 10 := by
  induction fuel generalizing n with
  | zero =>
    intro d hd
    simp only [decDigitsAux, List.mem_singleton] at hd
    omega
  | succ fuel ih =>
    intro d hd
    simp only [decDigitsAux] at hd
    by_cases h10 : n < 10
    · rw [if_pos h10] at hd
      simp at hd
      omega
    · rw [if_neg h10] at hd
      rcases List.mem_append.mp hd with hd | hd
      · exact ih (n / 10) (by omega) d hd
      · simp at hd
        omega

theorem padDigits_lt (length n : Nat) : ∀ d ∈ padDigits length n, d < 10 := by
  intro d hd
  rcases List.mem_append.mp hd with hd | hd
  · rw [List.eq_of_mem_replicate hd]
    omega
  · exact decDigitsAux_lt n n le_rfl d hd

theorem decDigitsAux_parse (fuel n : Nat) (hn : n ≤ fuel) :
    (decDigitsAux fuel n).foldl (fun acc d => 10 * acc + d) 0 = n := by
  induction fuel generalizing n with
  | zero =>
    simp only [decDigitsAux, List.foldl_cons, List.foldl_nil]
    omega
  | succ fuel ih =>
    simp only [decDigitsAux]
    by_cases h10 : n < 10
    · rw [if_pos h10]
      simp
    · rw [if_neg h10, List.foldl_append]
      simp only [List.foldl_cons, List.foldl_nil]
      rw [ih (n / 10) (by omega)]
      omega

theorem padDigits_parse (length n : Nat) :
    (padDigits length n).foldl (fun acc d => 10 * acc + d) 0 = n := by
  unfold padDigits
  rw [List.foldl_append]
  have hz : ∀ k, (List.replicate k (0 : Nat)).foldl
      (fun acc d => 10 * acc + d) 0 = 0 := by
    intro k
    induction k with
    | zero => rfl
    | succ k ih => simpa [List.replicate_succ] using ih
  rw [hz]
  exact decDigitsAux_parse n n le_rfl

theorem digitChar_toNat (d : Nat) (h : d < 10) : (digitChar d).toNat = 48 + d := by
  interval_cases d <;> rfl

theorem foldl_digitChars (l : List Nat) (hl : ∀ d ∈ l, d < 10) :
    ∀ a, (l.map digitChar).foldl (fun acc c => 10 * acc + (c.toNat - 48)) a =
      l.foldl (fun acc d => 10 * acc + d) a := by
  induction l with
  | nil => intro a; rfl
  | cons d l ih =>
    intro a
    simp only [List.map_cons, List.foldl_cons]
    rw [digitChar_toNat d (hl d (List.mem_cons_self d l))]
    rw [ih (fun x hx => hl x (List.mem_cons_of_mem d hx))]
    congr 1
    omega

/-- C8: stripping the basename off a name formatted by the name generator
and reading the decimal tail recovers the allocated `seq`, so
`UniqueNameGenerator.free(baseName, name)` on a name `get` produced
delegates to `UniqueIDGenerator.free` with the very `seq` that was
allocated. -/
theorem ungFree_roundtrip (b : String) (length seq : Nat)
    (h : seq ≤ 10 ^ length - 1) :
    parseTail b (seqName b length seq) = seq ∧
    ∀ (store : List UniqueIdRow) (owner : String) (stamp : Nat),
      ungFree store owner b (seqName b length seq) stamp =
        uidFree store b owner seq stamp := by
  have hparse : parseTail b (seqName b length seq) = seq := by
    unfold parseTail seqName
    have hdata : (b ++ String.mk ((padDigits length seq).map digitChar)).data =
        b.data ++ (padDigits length seq).map digitChar := rfl
    rw [hdata, List.drop_left]
    rw [foldl_digitChars (padDigits length seq) (padDigits_lt length seq) 0]
    exact padDigits_parse length seq
  refine ⟨hparse, ?_⟩
  intro store owner stamp
  unfold ungFree
  rw [hparse]

/-- Witness for `ungFree_roundtrip` at base `"ws"`, three digits, `seq` 7. -/
theorem ungFree_roundtrip_witness :
    parseTail "ws" (seqName "ws" 3 7) = 7 ∧
    ungFree [] "own" "ws" (seqName "ws" 3 7) 5 = uidFree [] "ws" "own" 7 5 := by
  have h := ungFree_roundtrip "ws" 3 7 (by norm_num)
  exact ⟨h.1, h.2 [] "own" 5⟩

theorem eligibleB_iff (now : Int) (r : DelayedTaskRow) :
    eligibleB now r = true ↔
      (r.execution_time < now ∨ now + 30 < r.insert_date) := by
  simp [eligibleB]

/-- C2 counterexample: one record whose `execution_time` equals `now`.
Under the claim's eligibility rule (`execution_time <= now()`) it should be
claimed, but the code's filter is strict (`execution_time__lt=now`), so the
poll answers nothing-to-do and leaves the row untouched. -/
theorem executeOne_at_now_not_claimed :
    (⟨"T", "p", 0, 0, 0, ""⟩ : DelayedTaskRow).execution_time ≤ 0 ∧
    executeOneDelayedTask (fun _ => some ([] : List Nat))
        (fun _ => some ()) 0 [⟨"T", "p", 0, 0, 0, ""⟩] =
      ([⟨"T", "p", 0, 0, 0, ""⟩], ClaimOutcome.nothingToDo) := by decide

/-- C2 (amended): a record is eligible once `execution_time` is strictly
before `now`, or its `insert_date` is more than 30 seconds ahead of `now`;
with no eligible record the poll answers nothing-to-do without raising, and
otherwise the eligible record of least `execution_time` is the one claimed:
its row is the one deleted (when its payload decodes) and the outcome is
never nothing-to-do. -/
theorem executeOne_claims_earliest {τ : Type} (decode : String → Option (List Nat))
    (load : List Nat → Option τ) (now : Int) (store : List DelayedTaskRow) :
    ((∀ r ∈ store, ¬(r.execution_time < now ∨ now + 30 < r.insert_date)) →
      executeOneDelayedTask decode load now store =
        (store, ClaimOutcome.nothingToDo)) ∧
    ((∃ r, r ∈ store ∧ (r.execution_time < now ∨ now + 30 < r.insert_date)) →
      ∃ t, claimedRow now store = some t ∧ t ∈ store ∧
        (t.execution_time < now ∨ now + 30 < t.insert_date) ∧
        (∀ r ∈ store, (r.execution_time < now ∨ now + 30 < r.insert_date) →
          t.execution_time ≤ r.execution_time) ∧
        (executeOneDelayedTask decode load now store).2 ≠
          ClaimOutcome.nothingToDo ∧
        (∀ dump, decode t.instanceDump = some dump →
          (executeOneDelayedTask decode load now store).1 = store.erase t)) := by
  constructor
  · intro hnone
    have hnil : store.filter (eligibleB now) = [] := by
      rw [List.filter_eq_nil_iff]
      intro r hr
      rw [Bool.not_eq_true]
      rw [Bool.eq_false_iff]
      intro he
      exact hnone r hr ((eligibleB_iff now r).mp he)
    have hcr : claimedRow now store = none := by
      unfold claimedRow
      rw [hnil]
      rfl
    simp only [executeOneDelayedTask, hcr]
  · rintro ⟨r, hr, helig⟩
    cases hcr : claimedRow now store with
    | none =>
      have hnil := (minByKey_eq_none _ _).mp hcr
      have hne := List.filter_eq_nil_iff.mp hnil r hr
      exact absurd ((eligibleB_iff now r).mpr helig) hne
    | some t =>
      have hmem := minByKey_mem _ _ _ hcr
      have hle := minByKey_le _ _ _ hcr
      rw [List.mem_filter] at hmem
      obtain ⟨hts, hte⟩ := hmem
      refine ⟨t, rfl, hts, (eligibleB_iff now t).mp hte, ?_, ?_, ?_⟩
      · intro s hs hse
        exact hle s (List.mem_filter.mpr ⟨hs, (eligibleB_iff now s).mpr hse⟩)
      · simp only [executeOneDelayedTask, hcr]
        cases hd : decode t.instanceDump with
        | none => simp
        | some dump =>
          cases hl : load dump with
          | none => simp [hd, hl]
          | some v => simp [hd, hl]
      · intro dump hd
        simp only [executeOneDelayedTask, hcr, hd]
        cases hl : load dump with
        | none => simp [hl]
        | some v => simp [hl]

/-- C5 counterexample: a due record whose payload is not valid base64.
`codecs.decode(..., 'base64')` runs inside the `transaction.atomic()` block
and before `task.delete()`, so its exception rolls the transaction back and
the selected row stays in the store, available to be claimed again —
against the claim that no failure mode leaves the selected row behind. -/
theorem executeOne_bad_base64_keeps_row :
    executeOneDelayedTask (fun _ => (none : Option (List Nat)))
        (fun _ => (none : Option Unit)) 5 [⟨"T", "###", 0, 0, 0, ""⟩] =
      ([⟨"T", "###", 0, 0, 0, ""⟩], ClaimOutcome.decodeFailed) := by decide

/-- C5 (amended): when the claim query selects a due record, a payload whose
base64 decoding succeeds has its row deleted and committed before
unpickling, so an unpickling failure leaves the row deleted — the task is
dropped for good; a base64 decoding failure, however, happens inside the
transaction before the delete, rolls it back, and leaves the selected row in
the store to be re-claimed. -/
theorem executeOne_delete_semantics {τ : Type}
    (decode : String → Option (List Nat)) (load : List Nat → Option τ)
    (now : Int) (store : List DelayedTaskRow) (t : DelayedTaskRow)
    (h : claimedRow now store = some t) :
    (∀ dump, decode t.instanceDump = some dump →
      (executeOneDelayedTask decode load now store).1 = store.erase t ∧
      (load dump = none →
        executeOneDelayedTask decode load now store =
          (store.erase t, ClaimOutcome.loadFailed))) ∧
    (decode t.instanceDump = none →
      executeOneDelayedTask decode load now store =
        (store, ClaimOutcome.decodeFailed)) := by
  constructor
  · intro dump hd
    constructor
    · simp only [executeOneDelayedTask, h, hd]
      cases hl : load dump with
      | none => simp [hl]
      | some v => simp [hl]
    · intro hl
      simp only [executeOneDelayedTask, h, hd, hl]
  · intro hd
    simp only [executeOneDelayedTask, h, hd]

/-- Witness for `executeOne_delete_semantics`: a concrete one-row store whose
payload decodes but does not unpickle; the row is deleted and the task
dropped. -/
theorem executeOne_delete_semantics_witness :
    executeOneDelayedTask (fun _ => some ([] : List Nat))
        (fun _ => (none : Option Unit)) 5 [⟨"T", "p", 0, 0, 0, ""⟩] =
      ([(⟨"T", "p", 0, 0, 0, ""⟩ : DelayedTaskRow)].erase ⟨"T", "p", 0, 0, 0, ""⟩,
        ClaimOutcome.loadFailed) :=
  ((executeOne_delete_semantics (fun _ => some ([] : List Nat))
      (fun _ => (none : Option Unit)) 5 [⟨"T", "p", 0, 0, 0, ""⟩]
      ⟨"T", "p", 0, 0, 0, ""⟩ (by decide)).1 [] rfl).2 rfl

/-- C10 counterexample: freeing the only assigned slot leaves no assigned
row, so the compaction `free` triggers truncates the whole basename — here
it also deletes the row of `seq` 1, which matches neither the freed `seq`
nor the caller's owner.  `free` therefore can modify more than the single
matching slot. -/
theorem uidFree_deletes_other_rows :
    uidFree [⟨"b", "A", 0, true, 3⟩, ⟨"b", "", 1, false, 3⟩] "b" "A" 0 9 = [] ∧
    (⟨"b", "", 1, false, 3⟩ : UniqueIdRow) ∈
      [(⟨"b", "A", 0, true, 3⟩ : UniqueIdRow), ⟨"b", "", 1, false, 3⟩] ∧
    (⟨"b", "", 1, false, 3⟩ : UniqueIdRow).seq ≠ 0 := by decide

/-- C10 (amended): the update step of `free(seq)` rewrites exactly the rows
matching the caller's basename, owner and `seq` (to unassigned, unowned,
restamped) and keeps every other row in place; when no row matches, `free`
returns without raising, leaves the store entirely unchanged and does not
run compaction; when at least one row matches, `free` is that update
followed by compaction of the basename, which may also delete trailing
rows of the basename beyond the last assigned one. -/
theorem uidFree_frame (store : List UniqueIdRow) (b owner : String)
    (seq stamp : Nat) :
    ((∀ r ∈ store, freeMatches b owner seq r = false) →
      uidFree store b owner seq stamp = store) ∧
    (∀ i : Nat, ∀ r, store[i]? = some r →
      (freeMatches b owner seq r = false →
        (freeUpdate store b owner seq stamp)[i]? = some r) ∧
      (freeMatches b owner seq r = true →
        (freeUpdate store b owner seq stamp)[i]? =
          some { r with owner := "", assigned := false, stamp := stamp })) ∧
    ((∃ r, r ∈ store ∧ freeMatches b owner seq r = true) →
      uidFree store b owner seq stamp =
        uidPurge (freeUpdate store b owner seq stamp) b) := by
  refine ⟨?_, ?_, ?_⟩
  · intro hno
    have hcount : store.countP (freeMatches b owner seq) = 0 := by
      rw [List.countP_eq_zero]
      intro r hr
      simp [hno r hr]
    have hupd : freeUpdate store b owner seq stamp = store := by
      unfold freeUpdate
      have : store.map (fun r =>
          if freeMatches b owner seq r then
            { r with owner := "", assigned := false, stamp := stamp }
          else r) = store.map id := by
        refine List.map_congr_left ?_
        intro r hr
        simp [hno r hr]
      rw [this, List.map_id]
    unfold uidFree
    rw [hcount, hupd]
    simp
  · intro i r hir
    have hmap : (freeUpdate store b owner seq stamp)[i]? =
        store[i]?.map (fun r =>
          if freeMatches b owner seq r then
            { r with owner := "", assigned := false, stamp := stamp }
          else r) := by
      unfold freeUpdate
      rw [List.getElem?_map]
    constructor
    · intro hf
      rw [hmap, hir]
      simp [hf]
    · intro hf
      rw [hmap, hir]
      simp [hf]
  · rintro ⟨r, hr, hf⟩
    have hcount : 0 < store.countP (freeMatches b owner seq) :=
      List.countP_pos_iff.mpr ⟨r, hr, hf⟩
    unfold uidFree
    simp [hcount]

theorem intOfNat_ne_negOne (n : Nat) : Int.ofNat n ≠ -1 := by
  rw [Int.ofNat_eq_coe]
  omega

theorem intOfNat_ne_of_ne (m n : Nat) (h : m ≠ n) :
    Int.ofNat m ≠ Int.ofNat n := by
  rw [Int.ofNat_eq_coe, Int.ofNat_eq_coe]
  omega

theorem assignUpdate_basename (b owner : String) (s stamp : Nat)
    (r : UniqueIdRow) : (assignUpdate b owner s stamp r).basename = r.basename := by
  unfold assignUpdate
  split <;> rfl

theorem assignUpdate_seq (b owner : String) (s stamp : Nat)
    (r : UniqueIdRow) : (assignUpdate b owner s stamp r).seq = r.seq := by
  unfold assignUpdate
  split <;> rfl

theorem assignUpdate_assigned_key (b owner : String) (s stamp : Nat)
    (r : UniqueIdRow) (hb : r.basename = b) (hs : r.seq = s) :
    (assignUpdate b owner s stamp r).assigned = true := by
  unfold assignUpdate
  rw [if_pos ⟨hb, hs⟩]

theorem assignUpdate_keeps_assigned (b owner : String) (s stamp : Nat)
    (r : UniqueIdRow) (ha : r.assigned = true) :
    (assignUpdate b owner s stamp r).assigned = true := by
  unfold assignUpdate
  split
  · rfl
  · exact ha

theorem freeCandidate_none_of_assigned (store : List UniqueIdRow) (b : String)
    (rangeStart rangeEnd : Nat)
    (h : ∀ r ∈ store, r.basename = b → rangeStart ≤ r.seq → r.seq ≤ rangeEnd →
      r.assigned = true) :
    freeCandidate store b rangeStart rangeEnd = none := by
  unfold freeCandidate
  rw [minByKey_eq_none, List.filter_filter, List.filter_eq_nil_iff]
  intro r hr
  rw [Bool.not_eq_true]
  cases ha : r.assigned with
  | true => simp [ha]
  | false =>
    by_cases hb : r.basename = b
    · by_cases h1 : rangeStart ≤ r.seq
      · by_cases h2 : r.seq ≤ rangeEnd
        · exact absurd (h r hr hb h1 h2) (by simp [ha])
        · simp [inRangeB, h2]
      · simp [inRangeB, h1]
    · simp [inRangeB, hb]

theorem assigned_after_assign (store : List UniqueIdRow) (b owner : String)
    (s stamp : Nat) :
    ∀ r2 ∈ store.map (assignUpdate b owner s stamp),
      r2.basename = b → r2.seq = s → r2.assigned = true := by
  intro r2 hr2 hb hs
  obtain ⟨r0, hr0, rfl⟩ := List.mem_map.mp hr2
  rw [assignUpdate_basename] at hb
  rw [assignUpdate_seq] at hs
  exact assignUpdate_assigned_key b owner s stamp r0 hb hs

/-- C6 counterexample: on the exhausted range `[0, 0]` whose only slot is
already assigned, two sequential `get` calls with no `free` in between both
return the sentinel `-1` — the same integer, not two distinct ones. -/
theorem uidGet_twice_same_on_exhausted :
    (uidGet [⟨"b", "A", 0, true, 0⟩] "b" "A" 0 0 1).1 = -1 ∧
    (uidGet (uidGet [⟨"b", "A", 0, true, 0⟩] "b" "A" 0 0 1).2
      "b" "A" 0 0 2).1 = -1 := by decide


theorem uidGet_after_assign_ne (store : List UniqueIdRow) (b owner : String)
    (rangeStart rangeEnd stamp1 stamp2 : Nat) (item : UniqueIdRow)
    (hfc : freeCandidate store b rangeStart rangeEnd = some item) :
    (uidGet (store.map (assignUpdate b owner item.seq stamp1))
        b owner rangeStart rangeEnd stamp2).1 ≠ Int.ofNat item.seq := by
  obtain ⟨hs, hb, h1, h2, hna, hmin⟩ := freeCandidate_spec _ _ _ _ _ hfc
  have hkey := assigned_after_assign store b owner item.seq stamp1
  cases hfc2 : freeCandidate (store.map (assignUpdate b owner item.seq stamp1))
      b rangeStart rangeEnd with
  | some item2 =>
    obtain ⟨hs2, hb2, _, _, hna2, _⟩ := freeCandidate_spec _ _ _ _ _ hfc2
    have hneq : item2.seq ≠ item.seq := by
      intro heq
      rw [hkey item2 hs2 hb2 heq] at hna2
      cases hna2
    simp only [uidGet, hfc2]
    exact intOfNat_ne_of_ne item2.seq item.seq hneq
  | none =>
    have humem : assignUpdate b owner item.seq stamp1 item ∈
        store.map (assignUpdate b owner item.seq stamp1) :=
      List.mem_map_of_mem _ hs
    have hub : (assignUpdate b owner item.seq stamp1 item).basename = b := by
      rw [assignUpdate_basename]
      exact hb
    have hus : (assignUpdate b owner item.seq stamp1 item).seq = item.seq :=
      assignUpdate_seq b owner item.seq stamp1 item
    have hua : (assignUpdate b owner item.seq stamp1 item).assigned = true :=
      assignUpdate_assigned_key b owner item.seq stamp1 item hb rfl
    rcases nextSeq_spec (store.map (assignUpdate b owner item.seq stamp1))
        b rangeStart rangeEnd with
      ⟨last, hls, hlb, _, _, hla, hns2, hmax2⟩ | ⟨hnoa, _⟩
    · have hge : item.seq ≤ last.seq := by
        have := hmax2 _ humem hub (by rw [hus]; exact h1)
          (by rw [hus]; exact h2) hua
        rw [hus] at this
        exact this
      simp only [uidGet, hfc2]
      by_cases hlt2 : rangeEnd <
          nextSeq (store.map (assignUpdate b owner item.seq stamp1))
            b rangeStart rangeEnd
      · rw [if_pos hlt2]
        exact (intOfNat_ne_negOne item.seq).symm
      · rw [if_neg hlt2]
        refine intOfNat_ne_of_ne _ _ ?_
        rw [hns2]
        omega
    · exfalso
      have := hnoa _ humem hub (by rw [hus]; exact h1) (by rw [hus]; exact h2)
      rw [hua] at this
      cases this

theorem uidGet_after_create_ne (store : List UniqueIdRow) (b owner : String)
    (rangeStart rangeEnd stamp1 stamp2 : Nat)
    (hall : ∀ r ∈ store, r.basename = b → rangeStart ≤ r.seq →
      r.seq ≤ rangeEnd → r.assigned = true)
    (hle : nextSeq store b rangeStart rangeEnd ≤ rangeEnd)
    (hge : rangeStart ≤ nextSeq store b rangeStart rangeEnd) :
    (uidGet (store ++ [⟨b, owner, nextSeq store b rangeStart rangeEnd,
        true, stamp1⟩]) b owner rangeStart rangeEnd stamp2).1 ≠
      Int.ofNat (nextSeq store b rangeStart rangeEnd) := by
  have hnmem : (⟨b, owner, nextSeq store b rangeStart rangeEnd, true, stamp1⟩ :
      UniqueIdRow) ∈ store ++ [⟨b, owner,
        nextSeq store b rangeStart rangeEnd, true, stamp1⟩] :=
    List.mem_append_right _ (List.mem_singleton_self _)
  have hfc2 : freeCandidate (store ++ [⟨b, owner,
      nextSeq store b rangeStart rangeEnd, true, stamp1⟩])
      b rangeStart rangeEnd = none := by
    apply freeCandidate_none_of_assigned
    intro r hr hrb hr1 hr2
    rcases List.mem_append.mp hr with hr | hr
    · exact hall r hr hrb hr1 hr2
    · rw [List.mem_singleton.mp hr]
  rcases nextSeq_spec (store ++ [⟨b, owner,
      nextSeq store b rangeStart rangeEnd, true, stamp1⟩])
      b rangeStart rangeEnd with
    ⟨last, hls, hlb, _, _, hla, hns2, hmax2⟩ | ⟨hnoa, _⟩
  · have hgt : nextSeq store b rangeStart rangeEnd ≤ last.seq :=
      hmax2 _ hnmem rfl hge hle rfl
    simp only [uidGet, hfc2]
    by_cases hlt2 : rangeEnd < nextSeq (store ++ [⟨b, owner,
        nextSeq store b rangeStart rangeEnd, true, stamp1⟩]) b rangeStart rangeEnd
    · rw [if_pos hlt2]
      exact (intOfNat_ne_negOne _).symm
    · rw [if_neg hlt2]
      refine intOfNat_ne_of_ne _ _ ?_
      rw [hns2]
      omega
  · exact absurd (hnoa _ hnmem rfl hge hle) (by simp)

/-- C6 (amended): two sequential `get` calls on the same basename and range
with no `free` in between return two distinct integers whenever the first
call succeeds; when the first call returns the exhausted sentinel `-1`, the
second returns `-1` as well (the store is unchanged, so the calls coincide). -/
theorem uidGet_twice_distinct (store : List UniqueIdRow) (b owner : String)
    (rangeStart rangeEnd stamp1 stamp2 : Nat) :
    ((uidGet store b owner rangeStart rangeEnd stamp1).1 = -1 →
      (uidGet (uidGet store b owner rangeStart rangeEnd stamp1).2
        b owner rangeStart rangeEnd stamp2).1 = -1) ∧
    ((uidGet store b owner rangeStart rangeEnd stamp1).1 ≠ -1 →
      (uidGet (uidGet store b owner rangeStart rangeEnd stamp1).2
          b owner rangeStart rangeEnd stamp2).1 ≠
        (uidGet store b owner rangeStart rangeEnd stamp1).1) := by
  cases hfc : freeCandidate store b rangeStart rangeEnd with
  | some item =>
    have hpair : uidGet store b owner rangeStart rangeEnd stamp1 =
        (Int.ofNat item.seq,
          store.map (assignUpdate b owner item.seq stamp1)) := by
      simp only [uidGet, hfc]
    constructor
    · intro hm1
      rw [hpair] at hm1
      exact absurd hm1 (intOfNat_ne_negOne item.seq)
    · intro _
      rw [hpair]
      exact uidGet_after_assign_ne store b owner rangeStart rangeEnd
        stamp1 stamp2 item hfc
  | none =>
    have hall := freeCandidate_none store b rangeStart rangeEnd hfc
    by_cases hlt : rangeEnd < nextSeq store b rangeStart rangeEnd
    · have hpair : uidGet store b owner rangeStart rangeEnd stamp1 =
          (-1, store) := by
        simp only [uidGet, hfc]
        rw [if_pos hlt]
      constructor
      · intro _
        rw [hpair]
        simp only [uidGet, hfc]
        rw [if_pos hlt]
      · intro hne
        rw [hpair] at hne
        exact absurd rfl hne
    · have hpair : uidGet store b owner rangeStart rangeEnd stamp1 =
          (Int.ofNat (nextSeq store b rangeStart rangeEnd),
            store ++ [⟨b, owner, nextSeq store b rangeStart rangeEnd,
              true, stamp1⟩]) := by
        simp only [uidGet, hfc]
        rw [if_neg hlt]
      have hge : rangeStart ≤ nextSeq store b rangeStart rangeEnd := by
        rcases nextSeq_spec store b rangeStart rangeEnd with
          ⟨last, _, _, hl1, _, _, hns, _⟩ | ⟨_, hns⟩ <;> omega
      constructor
      · intro hm1
        rw [hpair] at hm1
        exact absurd hm1 (intOfNat_ne_negOne _)
      · intro _
        rw [hpair]
        exact uidGet_after_create_ne store b owner rangeStart rangeEnd
          stamp1 stamp2 hall (Nat.not_lt.mp hlt) hge
